import Mathlib

/-!
Verification of the 3dmm-dump repository: a shallow embedding of the
chunky-container decoder, the two KCDC/KCD2 bit-level decompressors, the
byte-order loader protocol, the child-link lookup, the mesh-normal
welding pass and the atlas-size binary search, together with theorems
settling the specification claims about them.

Bytes are modelled as `Nat` (the source uses `u8`; all values of
interest are below 256 and only low bits are ever consumed).  Bit
streams are modelled as `List Bool` in LSB-first order, exactly the
order produced by `bitvec`'s `view_bits::<Lsb0>` over a byte slice.
Loops are written with an explicit fuel argument so that every
definition is executable by kernel reduction; the decoders are invoked
with fuel strictly larger than the number of available bits, and every
loop iteration of the source consumes at least one bit, so the
fuel-exhausted branch is unreachable on the actual entry points.
-/

namespace Dump

/-- The eight bits of a byte, LSB first (`bitvec` `Lsb0` order). -/
def byteBits (b : Nat) : List Bool :=
  [b.testBit 0, b.testBit 1, b.testBit 2, b.testBit 3,
   b.testBit 4, b.testBit 5, b.testBit 6, b.testBit 7]

/-- LSB-first bit stream of a byte slice, as `input.view_bits::<Lsb0>()`. -/
def bytesToBits (bytes : List Nat) : List Bool :=
  bytes.flatMap byteBits

/-- Load a bit group LSB-first into an integer
(`BitField::load_le` on an `Lsb0` slice). -/
def loadLE (bits : List Bool) : Nat :=
  bits.foldr (fun b acc => 2 * acc + (if b then 1 else 0)) 0

/-- Number of leading `true` bits (`BitSlice::leading_ones`). -/
def leadingOnes : List Bool → Nat
  | [] => 0
  | false :: _ => 0
  | true :: rest => leadingOnes rest + 1

/-- Big-endian 32-bit read of the first four bytes
(`ReadBytesExt::read_u32::<BigEndian>`). -/
def be32 (bytes : List Nat) : Nat :=
  ((bytes.getD 0 0) % 256) * 16777216 + ((bytes.getD 1 0) % 256) * 65536 +
    ((bytes.getD 2 0) % 256) * 256 + (bytes.getD 3 0) % 256

/-- Little-endian 32-bit read of the first four bytes. -/
def le32 (bytes : List Nat) : Nat :=
  ((bytes.getD 3 0) % 256) * 16777216 + ((bytes.getD 2 0) % 256) * 65536 +
    ((bytes.getD 1 0) % 256) * 256 + (bytes.getD 0 0) % 256

/-- Big-endian 16-bit read of the first two bytes. -/
def be16 (bytes : List Nat) : Nat :=
  ((bytes.getD 0 0) % 256) * 256 + (bytes.getD 1 0) % 256

/-- Little-endian 16-bit read of the first two bytes. -/
def le16 (bytes : List Nat) : Nat :=
  ((bytes.getD 1 0) % 256) * 256 + (bytes.getD 0 0) % 256

/-- Errors surfaced by the decoders (the source uses `anyhow` strings;
only the identity of the failure matters here). -/
inductive DErr
  | unexpectedEOF
  | emptyEncoded
  | overflow
  | eofInLiteral
  | invalidBackref
  | offsetOutOfRange
  | unsupportedCodec
  deriving DecidableEq, Repr

/-- The overlapping byte-by-byte back-reference copy
(`for i in source..source + length { output.push(output[i]) }`).
The count is the first argument so the recursion is structural. -/
def backrefCopy : Nat → List Nat → Nat → List Nat
  | 0, output, _ => output
  | n + 1, output, source => backrefCopy n (output ++ [output.getD source 0]) (source + 1)

namespace Kcdc

/-- `kcdc.rs` line 5: the terminal offset sentinel. -/
def OFFSET_STOP : Nat := 0x101240

/-- The prefix-unary offset family dispatch and the raw offset load,
`kcdc.rs` lines 64-78: returns `(offset, length_offset, rest)`.
`none` is the `?` propagation on end of stream. -/
def read_offset_field (bits : List Bool) : Option (Nat × Nat × List Bool) :=
  match bits with
  | [] => none
  | false :: r =>
    if 6 ≤ r.length then some (loadLE (r.take 6) + 0x0001, 1, r.drop 6) else none
  | true :: r =>
    match r with
    | [] => none
    | false :: r =>
      if 9 ≤ r.length then some (loadLE (r.take 9) + 0x0041, 1, r.drop 9) else none
    | true :: r =>
      match r with
      | [] => none
      | false :: r =>
        if 12 ≤ r.length then some (loadLE (r.take 12) + 0x0241, 1, r.drop 12) else none
      | true :: r =>
        if 20 ≤ r.length then some (loadLE (r.take 20) + 0x1241, 2, r.drop 20) else none

/-- The length field decode of `kcdc.rs` lines 83-96, factored out of
`read_offset_length` with the family's `length_offset` as a parameter. -/
def read_length_field (length_offset : Nat) (bits : List Bool) : Option (Nat × List Bool) :=
  let max := min 12 bits.length
  let k := leadingOnes (bits.take max)
  if k = max then none
  else
    let bits := bits.drop (k + 1)
    if k = 0 then some (length_offset + 1, bits)
    else if k ≤ bits.length then
      some (loadLE (bits.take k) + (1 <<< k) + length_offset, bits.drop k)
    else none

/-- `kcdc.rs` `read_offset_length` (lines 57-99): offset family, sentinel
check, then the length field; returns the remaining bits alongside. -/
def read_offset_length (bits : List Bool) : Option (Nat × Nat × List Bool) :=
  match read_offset_field bits with
  | none => none
  | some (offset, length_offset, rest) =>
    if offset = OFFSET_STOP then some (offset, 0, rest)
    else
      match read_length_field length_offset rest with
      | none => none
      | some (length, rest) => some (offset, length, rest)

/-- The decode loop of `kcdc.rs` lines 15-52.  `len` is the header's
uncompressed length, `output` the bytes emitted so far. -/
def loop : Nat → Nat → List Nat → List Bool → Except DErr (List Nat)
  | 0, _, _, _ => .error .unexpectedEOF
  | fuel + 1, len, output, bits =>
    match bits with
    | [] => .error .unexpectedEOF
    | bit :: rest =>
      if !bit then
        if output.length < len then
          if 8 ≤ rest.length then
            loop fuel len (output ++ [loadLE (rest.take 8)]) (rest.drop 8)
          else .error .eofInLiteral
        else .error .overflow
      else
        match read_offset_length rest with
        | none => .error .invalidBackref
        | some (offset, length, rest) =>
          if offset = OFFSET_STOP then .ok output
          else
            if offset ≤ output.length then
              if output.length + length ≤ len then
                loop fuel len (backrefCopy length output (output.length - offset)) rest
              else .error .overflow
            else .error .offsetOutOfRange

/-- `kcdc.rs` `decode` (lines 7-55): big-endian 32-bit uncompressed
length, one ignored byte, then the LSB-first token stream. -/
def decode (input : List Nat) : Except DErr (List Nat) :=
  if 4 ≤ input.length then
    let len := be32 (input.take 4)
    let rest := input.drop 4
    match rest with
    | [] => .error .emptyEncoded
    | _ :: stream =>
      let bits := bytesToBits stream
      loop (bits.length + 1) len [] bits
  else .error .unexpectedEOF

end Kcdc

namespace Kcd2

/-- `kcd2.rs` `Length` (lines 73-76). -/
inductive Length
  | ok (n : Nat)
  | brk
  deriving DecidableEq, Repr

/-- `kcd2.rs` `read_length` (lines 78-98): leading ones up to 12 signal
termination (`Length::Break`); otherwise the same leading-ones field as
the legacy decoder, with no `length_offset` added at this point. -/
def read_length (bits : List Bool) : Option (Length × List Bool) :=
  let max := min 12 bits.length
  let k := leadingOnes (bits.take max)
  if k = max then some (.brk, bits)
  else
    let bits := bits.drop (k + 1)
    if k = 0 then some (.ok 1, bits)
    else if k ≤ bits.length then
      some (.ok (loadLE (bits.take k) + (1 <<< k)), bits.drop k)
    else none

/-- `kcd2.rs` `read_offset_length` (lines 100-126): the same four-family
offset grammar, duplicated in the source; the already-read base length
gets the family's `length_offset` added; there is no sentinel check. -/
def read_offset_length (bits : List Bool) (base_length : Nat) :
    Option (Nat × Nat × List Bool) :=
  match bits with
  | [] => none
  | false :: r =>
    if 6 ≤ r.length then
      some (loadLE (r.take 6) + 0x0001, base_length + 1, r.drop 6)
    else none
  | true :: r =>
    match r with
    | [] => none
    | false :: r =>
      if 9 ≤ r.length then
        some (loadLE (r.take 9) + 0x0041, base_length + 1, r.drop 9)
      else none
    | true :: r =>
      match r with
      | [] => none
      | false :: r =>
        if 12 ≤ r.length then
          some (loadLE (r.take 12) + 0x0241, base_length + 1, r.drop 12)
        else none
      | true :: r =>
        if 20 ≤ r.length then
          some (loadLE (r.take 20) + 0x1241, base_length + 2, r.drop 20)
        else none

/-- Bytes of a bit run taken eight LSB-first bits at a time. -/
def bitsToBytes (bits : List Bool) : List Nat :=
  (List.range (bits.length / 8)).map fun k => loadLE ((bits.drop (8 * k)).take 8)

/-- The literal-run bytes of `kcd2.rs` lines 37-45.  `a` is the bit
position of the run's start within its byte.  `bitvec`'s
`bit_domain().region()` splits the run into a partial leading byte
(`head`, the first `8 - a` bits when `a ≠ 0`), whole bytes (`body`,
appended directly), and a partial trailing byte (`tail`, the last `a`
bits); the source then folds `head ++ tail` LSB-first into one extra
byte appended after the body. -/
def literal_bytes (a : Nat) (bits : List Bool) : List Nat :=
  if a % 8 = 0 then bitsToBytes bits
  else
    bitsToBytes ((bits.drop (8 - a % 8)).take (bits.length - 8)) ++
      [loadLE (bits.take (8 - a % 8) ++ bits.drop (bits.length - a % 8))]

/-- The decode loop of `kcd2.rs` lines 15-68.  `a` tracks the current
bit position modulo 8 (the stream starts byte-aligned), which fixes the
head/tail split of a literal run. -/
def loop : Nat → Nat → List Nat → List Bool → Nat → Except DErr (List Nat)
  | 0, _, _, _, _ => .error .unexpectedEOF
  | fuel + 1, len, output, bits, a =>
    match read_length bits with
    | none => .error .unexpectedEOF
    | some (.brk, _) => .ok output
    | some (.ok n, bits1) =>
      match bits1 with
      | [] => .error .unexpectedEOF
      | bit :: bits2 =>
        let a2 := (a + (bits.length - bits2.length)) % 8
        if !bit then
          if output.length + n ≤ len then
            if 8 * n ≤ bits2.length then
              loop fuel len (output ++ literal_bytes a2 (bits2.take (8 * n)))
                (bits2.drop (8 * n)) a2
            else .error .unexpectedEOF
          else .error .overflow
        else
          match read_offset_length bits2 n with
          | none => .error .invalidBackref
          | some (offset, length, bits3) =>
            if offset ≤ output.length then
              if output.length + length ≤ len then
                loop fuel len (backrefCopy length output (output.length - offset)) bits3
                  ((a2 + (bits2.length - bits3.length)) % 8)
              else .error .overflow
            else .error .offsetOutOfRange

/-- `kcd2.rs` `decode` (lines 7-71): the same header as the legacy
decoder, then the length-first token stream. -/
def decode (input : List Nat) : Except DErr (List Nat) :=
  if 4 ≤ input.length then
    let len := be32 (input.take 4)
    let rest := input.drop 4
    match rest with
    | [] => .error .emptyEncoded
    | _ :: stream =>
      let bits := bytesToBits stream
      loop (bits.length + 1) len [] bits 0
  else .error .unexpectedEOF

end Kcd2

namespace Kauai

/-- `kauai.rs` `decode` (lines 20-29): four-byte codec tag dispatch.
The tags are byte sequences; "KCDC" is `[75, 67, 68, 67]` and "KCD2"
is `[75, 67, 68, 50]`. -/
def decode (input : List Nat) : Except DErr (List Nat) :=
  if input.length < 4 then .error .unexpectedEOF
  else if input.take 4 = [75, 67, 68, 67] then Kcdc.decode (input.drop 4)
  else if input.take 4 = [75, 67, 68, 50] then Kcd2.decode (input.drop 4)
  else .error .unsupportedCodec

end Kauai

namespace Order

/-- `order.rs` line 5. -/
def BYTE_ORDER_NATIVE : Nat := 0x0001

/-- `order.rs` line 6. -/
def BYTE_ORDER_SWAPPED : Nat := 0x0100

/-- A record type using the `Loader` trait of `order.rs`: `size` is the
byte size of its `OnFile` structure, `read e bytes` the `zerocopy`
interpretation of the first `size` bytes under endianness `e`
(`false` = little, `true` = big), `byte_order` the trait's mark
accessor, and `into_native` the type-specific decoder taking the raw
record and the full input slice. -/
structure LoaderSpec (R S E : Type) where
  size : Nat
  read : Bool → List Nat → R
  byte_order : R → Nat
  into_native : Bool → R → List Nat → Except E S

/-- The three outcomes of `Loader::load`: the loader's own two failure
modes, or the record decoder's result. -/
inductive LoadOutcome (E S : Type)
  | truncatedHeader
  | unknownByteOrder
  | decoded (r : Except E S)

/-- `order.rs` `Loader::load` (lines 21-39): read little-endian first
(`TruncatedHeader` if the input is shorter than the record), inspect
the byte-order mark, re-read big-endian when it is swapped, and fail
`UnknownByteOrder` on any other mark.  The source's second
`read_from_prefix` repeats the same length check on the same input, so
it cannot fail and is not modelled separately. -/
def load {R S E : Type} (L : LoaderSpec R S E) (input : List Nat) : LoadOutcome E S :=
  if L.size ≤ input.length then
    let raw := L.read false (input.take L.size)
    if L.byte_order raw = BYTE_ORDER_NATIVE then
      .decoded (L.into_native false raw input)
    else if L.byte_order raw = BYTE_ORDER_SWAPPED then
      .decoded (L.into_native true (L.read true (input.take L.size)) input)
    else .unknownByteOrder
  else .truncatedHeader

/-- A sample loader instance used to witness the protocol: a two-byte
record whose value is its own byte-order mark, decoding to the input
length plus an endianness flag. -/
def sampleLoader : LoaderSpec Nat Nat Unit where
  size := 2
  read := fun big bytes => if big then be16 bytes else le16 bytes
  byte_order := fun r => r
  into_native := fun big _ input => .ok (input.length + (if big then 1 else 0))

end Order

namespace Chunky

/-- `chunky.rs` `ChunkId` (lines 118-126) in native form: the numeric
`u32` values of the tag and chunk number. -/
structure ChunkId where
  tag : Nat
  number : Nat
  deriving DecidableEq, Repr

/-- `ChunkId::cmp` (lines 128-136): tag, then number. -/
def chunkIdCmp (a b : ChunkId) : Ordering :=
  (compare a.tag b.tag).then (compare a.number b.number)

/-- `chunky.rs` `ChildLink` (lines 262-266). -/
structure ChildLink where
  chunk_id : ChunkId
  child_id : Nat
  deriving DecidableEq, Repr

/-- The sort comparator of `Group::into_native` lines 369-373:
`(child_id, chunk_id)` with `chunk_id` ordered by (tag, number). -/
def childCmp (a b : ChildLink) : Ordering :=
  (compare a.child_id b.child_id).then (chunkIdCmp a.chunk_id b.chunk_id)

/-- Insert into a list sorted by `childCmp`.  The source uses
`sort_unstable_by`; any comparison sort yields a list sorted by the
same comparator, which is all later lookups rely on. -/
def insertChild (c : ChildLink) : List ChildLink → List ChildLink
  | [] => [c]
  | x :: xs => if childCmp c x ≠ .gt then c :: x :: xs else x :: insertChild c xs

/-- The `children.sort_unstable_by` call modelled as insertion sort. -/
def sortChildren (l : List ChildLink) : List ChildLink :=
  l.foldr insertChild []

/-- `chunky.rs` `IndexEntry` (lines 237-244).  `flags` keeps the raw
`grfcrp` bits (`ChunkFlags::from_bits_retain`); the name is kept as its
list of code units. -/
structure IndexEntry where
  offset : Nat
  flags : Nat
  length : Nat
  name : List Nat
  children : List ChildLink
  deriving DecidableEq, Repr

/-- Endian-dispatched 16-bit read. -/
def readU16 (big : Bool) (bytes : List Nat) : Nat :=
  if big then be16 bytes else le16 bytes

/-- Endian-dispatched 32-bit read. -/
def readU32 (big : Bool) (bytes : List Nat) : Nat :=
  if big then be32 bytes else le32 bytes

/-- The `child_count` iterations of the child-link read loop
(`chunky.rs` lines 357-367): each `ChildChunkRef` is 12 bytes — chunk
tag, chunk number, child ordinal; `none` models the EOF bail. -/
def parseChildren (big : Bool) : Nat → List Nat → Option (List ChildLink × List Nat)
  | 0, data => some ([], data)
  | n + 1, data =>
    if 12 ≤ data.length then
      let link : ChildLink :=
        ⟨⟨readU32 big (data.take 4), readU32 big ((data.drop 4).take 4)⟩,
          readU32 big ((data.drop 8).take 4)⟩
      match parseChildren big n (data.drop 12) with
      | some (links, rest) => some (link :: links, rest)
      | none => none
    else none

/-- Is `c` a UTF-8 continuation byte. -/
def utf8Cont (c : Nat) : Bool := 0x80 ≤ c && c < 0xC0

/-- UTF-8 validity of a byte list (`std::str::from_utf8` succeeds). -/
def validUtf8 : List Nat → Bool
  | [] => true
  | b :: rest =>
    if b < 0x80 then validUtf8 rest
    else if b < 0xC2 then false
    else if b < 0xE0 then
      match rest with
      | c1 :: r => utf8Cont c1 && validUtf8 r
      | [] => false
    else if b < 0xF0 then
      match rest with
      | c1 :: c2 :: r =>
        (if b = 0xE0 then decide (0xA0 ≤ c1) && decide (c1 < 0xC0)
         else if b = 0xED then decide (0x80 ≤ c1) && decide (c1 < 0xA0)
         else utf8Cont c1) && utf8Cont c2 && validUtf8 r
      | _ => false
    else if b < 0xF5 then
      match rest with
      | c1 :: c2 :: c3 :: r =>
        (if b = 0xF0 then decide (0x90 ≤ c1) && decide (c1 < 0xC0)
         else if b = 0xF4 then decide (0x80 ≤ c1) && decide (c1 < 0x90)
         else utf8Cont c1) && utf8Cont c2 && utf8Cont c3 && validUtf8 r
      | _ => false
    else false

/-- The `chunks_exact(2).take(len)` UTF-16 unit read of `chunky.rs`
lines 384-389: stops silently when fewer than two bytes remain. -/
def readUtf16Units (big : Bool) : Nat → List Nat → List Nat
  | 0, _ => []
  | n + 1, b0 :: b1 :: rest => readU16 big [b0, b1] :: readUtf16Units big n rest
  | _ + 1, [] => []
  | _ + 1, [_] => []

/-- UTF-16 validity (`OsString::from_wide(..).into_string()` succeeds):
surrogates must come in ordered pairs. -/
def validUtf16 : List Nat → Bool
  | [] => true
  | u :: rest =>
    if 0xD800 ≤ u ∧ u < 0xDC00 then
      match rest with
      | u2 :: r => (decide (0xDC00 ≤ u2) && decide (u2 < 0xE000)) && validUtf16 r
      | [] => false
    else if 0xDC00 ≤ u ∧ u < 0xE000 then false
    else validUtf16 rest

/-- The chunk-name parse of `chunky.rs` lines 375-402: empty remainder
means the empty name; otherwise a 3-byte `StringHeader` (osk `u16`,
length `u8`), then `0x0303` UTF-8 bytes or `0x0505` UTF-16 units; any
other osk is an error.  `none` covers both the source's bails and the
panic of the unchecked `&data[..len]` slice in the UTF-8 arm. -/
def parseName (big : Bool) (data : List Nat) : Option (List Nat) :=
  if data.isEmpty then some []
  else if 3 ≤ data.length then
    let osk := readU16 big (data.take 2)
    let len := (data.getD 2 0) % 256
    let rest := data.drop 3
    if osk = 0x0303 then
      if len ≤ rest.length then
        if validUtf8 (rest.take len) then some (rest.take len) else none
      else none
    else if osk = 0x0505 then
      let units := readUtf16Units big len rest
      if validUtf16 units then some units else none
    else none
  else none

/-- One record of the index group loop in `Group::into_native`
(`chunky.rs` lines 350-413): the 20-byte `ChunkRepresentationSmall`
(chunk id, data offset, packed flags-and-length word, child count,
owner count), the child links (then sorted), and the optional name.
The flags byte is the low 8 bits of the packed word, the length its
high 24 bits.  No bound on `offset + length` is checked anywhere. -/
def parse_entry (big : Bool) (data : List Nat) : Option (ChunkId × IndexEntry) :=
  if 20 ≤ data.length then
    let tag := readU32 big (data.take 4)
    let number := readU32 big ((data.drop 4).take 4)
    let offset := readU32 big ((data.drop 8).take 4)
    let grfcrpCb := readU32 big ((data.drop 12).take 4)
    let childCount := readU16 big ((data.drop 16).take 2)
    match parseChildren big childCount (data.drop 20) with
    | none => none
    | some (children, rest) =>
      match parseName big rest with
      | none => none
      | some name =>
        some (⟨tag, number⟩,
          { offset := offset, flags := grfcrpCb % 256, length := grfcrpCb / 256,
            name := name, children := sortChildren children })
  else none

/-- `Cow<[u8]>`: borrowed archive bytes or an owned decompressed
buffer. -/
inductive Cow
  | borrowed (bytes : List Nat)
  | owned (bytes : List Nat)
  deriving DecidableEq, Repr

/-- `chunky.rs` `ChunkyFile` (lines 268-271). -/
structure ChunkyFile where
  data : List Nat
  index : List (ChunkId × IndexEntry)

/-- `ChunkyFile::get_chunk` (lines 274-283).  The slice expression
`&self.data[offset..offset + length]` is an unchecked panicking index:
the outer `none` models the panic when the range exceeds the archive;
inside the range, a PACKED (0x04) chunk is decompressed through the
`kauai::decode` codec dispatch into an owned buffer and any other
chunk is returned as a borrowed slice. -/
def get_chunk (file : ChunkyFile) (entry : IndexEntry) : Option (Except DErr Cow) :=
  if entry.offset + entry.length ≤ file.data.length then
    let data := (file.data.drop entry.offset).take entry.length
    if entry.flags &&& 0x04 ≠ 0 then
      some ((Kauai.decode data).map .owned)
    else some (.ok (.borrowed data))
  else none

/-- Default element for list indexing inside the binary search (the
source indexes a slice, which is always in range there). -/
def dfltChild : ChildLink := ⟨⟨0, 0⟩, 0⟩

/-- Rust's `slice::binary_search_by` loop, fuelled: `left`/`right`
bracket the search window, the probe is `left + (right − left) / 2`,
`Less` moves `left` past the probe, `Greater` moves `right` to it and
`Equal` returns the probe index. -/
def bsLoop (f : ChildLink → Ordering) (l : List ChildLink) :
    Nat → Nat → Nat → Option Nat
  | 0, _, _ => none
  | fuel + 1, left, right =>
    if left < right then
      let mid := left + (right - left) / 2
      match f (l.getD mid dfltChild) with
      | .lt => bsLoop f l fuel (mid + 1) right
      | .gt => bsLoop f l fuel left mid
      | .eq => some mid
    else none

/-- `binary_search_by` entry point (window shrinks every iteration, so
`length + 1` fuel always suffices). -/
def binary_search_by (f : ChildLink → Ordering) (l : List ChildLink) : Option Nat :=
  bsLoop f l (l.length + 1) 0 l.length

/-- The closure passed to `binary_search_by` in `get_child` (`chunky.rs`
lines 252-256): compare a child link to the composite key
(ordinal, tag). -/
def searchCmp (child_id tag : Nat) (c : ChildLink) : Ordering :=
  (compare c.child_id child_id).then (compare c.chunk_id.tag tag)

/-- `IndexEntry::get_child` (`chunky.rs` lines 247-259): the tag bytes
must be exactly four (`try_into().ok()?`), are read big-endian, and the
child list is binary-searched by `(child_id, tag)`. -/
def get_child (e : IndexEntry) (child_id : Nat) (tag : List Nat) : Option ChunkId :=
  if tag.length = 4 then
    match binary_search_by (searchCmp child_id (be32 tag)) e.children with
    | some i => some ((e.children.getD i dfltChild).chunk_id)
    | none => none
  else none

/-- Numeric rank of an `Ordering`, for stating that a comparison is
monotone along a sorted list. -/
def ordRank : Ordering → Nat
  | .lt => 0
  | .eq => 1
  | .gt => 2

end Chunky

namespace Modl

/-- Exact stand-in for an `f32` vertex position: the welding pass only
compares coordinates (`partial_cmp`), so any linearly ordered exact
scalar observes the same control flow; `Int` keeps the model
decidable. -/
abbrev Pos := Int × Int × Int

/-- The position comparison of `vertex_compare_smoothing` (`modl.rs`
lines 347-354): x, then y, then z. -/
def posCmp (a b : Pos) : Ordering :=
  (compare a.1 b.1).then ((compare a.2.1 b.2.1).then (compare a.2.2 b.2.2))

/-- The face data consumed by the welding pass (`modl.rs` `Face` after
the face-normal/smoothing loop of lines 298-332): three vertex
indices, the smoothing mask, and the face normal, the latter as an
exact vector since the pass only adds normals together. -/
structure PrepFace where
  v0 : Nat
  v1 : Nat
  v2 : Nat
  smoothing : Nat
  normal : Pos
  deriving DecidableEq, Repr

/-- `temp_verts` (`modl.rs` lines 334-343): one (vertex, face)
incidence per face corner, in face order. -/
def tempVerts (faces : List PrepFace) : List (Nat × Nat) :=
  (faces.enum.map fun p => [(p.2.v0, p.1), (p.2.v1, p.1), (p.2.v2, p.1)]).flatten

/-- `vertex_compare_smoothing` on incidences: compare the positions of
the incident vertices. -/
def vertexCompare (positions : List Pos) (a b : Nat × Nat) : Ordering :=
  posCmp (positions.getD a.1 (0, 0, 0)) (positions.getD b.1 (0, 0, 0))

/-- Whether `sv` is a possible result of
`sorted_vertices.sort_unstable_by(vertex_compare_smoothing ..)`:
adjacent elements never compare `Greater`.  The sort's tie order is
unspecified, so theorems quantify over every sorted permutation. -/
def sortedBySmoothing (positions : List Pos) (faces : List PrepFace) : List Nat → Bool
  | [] => true
  | [_] => true
  | a :: b :: rest =>
    (vertexCompare positions ((tempVerts faces).getD a (0, 0))
        ((tempVerts faces).getD b (0, 0)) != .gt) &&
      sortedBySmoothing positions faces (b :: rest)

/-- The run splitter of the source's `GroupBy` iterator (`modl.rs`
lines 205-230): maximal runs of adjacent elements satisfying the
predicate. -/
def groupRun (p : Nat → Nat → Bool) : List Nat → Nat → List Nat → List (List Nat)
  | [], cur, acc => [(cur :: acc).reverse]
  | x :: xs, cur, acc =>
    if p cur x then groupRun p xs x (cur :: acc)
    else (cur :: acc).reverse :: groupRun p xs x []

/-- `GroupBy(slice, p)` as a list of groups. -/
def groupByAdj (p : Nat → Nat → Bool) : List Nat → List (List Nat)
  | [] => []
  | x :: xs => groupRun p xs x []

/-- Vector addition of accumulated normals (`*normal += j.normal`). -/
def addV (a b : Pos) : Pos := (a.1 + b.1, a.2.1 + b.2.1, a.2.2 + b.2.2)

/-- The doubly nested accumulation loop over one welding group
(`modl.rs` lines 371-380): for every pair `(i, j)` of the group, if the
smoothing masks of the two incident faces intersect, add face `j`'s
normal to the normal of incidence `i`'s vertex. -/
def weldStep (faces : List PrepFace) (tv : List (Nat × Nat)) (normals : List Pos)
    (weld : List Nat) : List Pos :=
  weld.foldl (fun ns wi =>
    weld.foldl (fun ns wj =>
      let vertex := tv.getD wi (0, 0)
      let fi := faces.getD vertex.2 ⟨0, 0, 0, 0, (0, 0, 0)⟩
      let fj := faces.getD (tv.getD wj (0, 0)).2 ⟨0, 0, 0, 0, (0, 0, 0)⟩
      if fi.smoothing &&& fj.smoothing ≠ 0 then
        ns.set vertex.1 (addV (ns.getD vertex.1 (0, 0, 0)) fj.normal)
      else ns) ns) normals

/-- The accumulation as the source performs it (`modl.rs` lines
364-381): the `GroupBy` predicate indexes `temp_verts` through
`sorted_vertices[*a]` even though `a` is already an element of
`sorted_vertices`, applying the sorted permutation twice. -/
def codeNormals (positions : List Pos) (faces : List PrepFace) (sv : List Nat) : List Pos :=
  let tv := tempVerts faces
  let groups := groupByAdj (fun a b =>
    vertexCompare positions (tv.getD (sv.getD a 0) (0, 0)) (tv.getD (sv.getD b 0) (0, 0)) ==
      .eq) sv
  groups.foldl (weldStep faces tv) (List.replicate positions.length (0, 0, 0))

/-- The accumulation as claim C2 and §4.6 of the spec describe it:
welding clusters are maximal runs of positionally coincident
incidences of the sorted list — the predicate compares the incidences
named by adjacent elements of the sorted list themselves. -/
def claimNormals (positions : List Pos) (faces : List PrepFace) (sv : List Nat) : List Pos :=
  let tv := tempVerts faces
  let groups := groupByAdj (fun a b =>
    vertexCompare positions (tv.getD a (0, 0)) (tv.getD b (0, 0)) == .eq) sv
  groups.foldl (weldStep faces tv) (List.replicate positions.length (0, 0, 0))

/-- The failing model: one face over three vertices, two of which
coincide positionally; smoothing 1, face normal `(0, 0, 1)`. -/
def bugPositions : List Pos := [(1, 0, 0), (1, 0, 0), (0, 0, 0)]

/-- The single face of the failing model. -/
def bugFaces : List PrepFace := [⟨0, 1, 2, 1, (0, 0, 1)⟩]

end Modl

namespace Pack

/-- `main.rs` line 457: the candidate canvas edge lengths. -/
def SIZES : List Nat := [8, 16, 32, 64, 128, 256, 512, 1024, 2048, 4096]

/-- The binary-search loop of `pack_to_minimal_square` (`main.rs` lines
458-481), abstracted over `packs s`, the success of
`rectangle_pack::pack_rects` on one `s × s` bin for the fixed rectangle
input.  Splits at `len / 2`, takes the head of the right part as the
probe, keeps the left part on success (recording the probe) and the
part after the probe on failure.  The window shrinks every iteration,
so `SIZES.length + 1` fuel always suffices; fuel 0 is unreachable. -/
def packLoop (packs : Nat → Bool) : Nat → List Nat → Option Nat → Option Nat
  | 0, _, packed => packed
  | fuel + 1, possible, packed =>
    let left := possible.take (possible.length / 2)
    let right := possible.drop (possible.length / 2)
    match right with
    | [] => packed
    | middle :: right2 =>
      if packs middle then packLoop packs fuel left (some middle)
      else packLoop packs fuel right2 packed

/-- `pack_to_minimal_square` (`main.rs` lines 454-486): the chosen edge
length, or `none` for the `bail!` when nothing packed. -/
def pack_to_minimal_square (packs : Nat → Bool) : Option Nat :=
  packLoop packs (SIZES.length + 1) SIZES none

end Pack

/-! ### Basic lemmas about the bit-stream primitives -/

theorem loadLE_lt (bits : List Bool) : loadLE bits < 2 ^ bits.length := by
  induction bits with
  | nil => simp [loadLE]
  | cons b rest ih =>
    simp only [loadLE, List.foldr_cons, List.length_cons, pow_succ]
    simp only [loadLE] at ih
    cases b <;> simp <;> omega

theorem leadingOnes_take (m : Nat) (l : List Bool) :
    leadingOnes (l.take m) = min m (leadingOnes l) := by
  induction l generalizing m with
  | nil => simp [leadingOnes]
  | cons b rest ih =>
    cases m with
    | zero => simp [leadingOnes]
    | succ m =>
      cases b with
      | false => simp [leadingOnes]
      | true =>
        simp only [List.take_succ_cons, leadingOnes, ih]
        omega

theorem leadingOnes_replicate (k : Nat) :
    leadingOnes (List.replicate k true) = k := by
  induction k with
  | zero => simp [leadingOnes]
  | succ k ih => simp [List.replicate_succ, leadingOnes, ih]

theorem leadingOnes_replicate_append (k : Nat) (l : List Bool) :
    leadingOnes (List.replicate k true ++ l) = k + leadingOnes l := by
  induction k with
  | zero => simp
  | succ k ih => simp [List.replicate_succ, leadingOnes, ih]; omega

theorem leadingOnes_le (l : List Bool) : leadingOnes l ≤ l.length := by
  induction l with
  | nil => simp [leadingOnes]
  | cons b rest ih =>
    cases b
    · simp [leadingOnes]
    · simp [leadingOnes]
      omega

theorem backrefCopy_length (n : Nat) : ∀ output source,
    (backrefCopy n output source).length = output.length + n := by
  induction n with
  | zero => intro output source; simp [backrefCopy]
  | succ n ih =>
    intro output source
    simp [backrefCopy, ih]
    omega

/-! ### Claim C6: the offset/length family-dispatch scenario -/

/-- Claim C6 (counterexample): the bit stream written in the spec,
`0 000000 11110 110 00` read LSB-first, actually decodes to offset 1 and
length 20 with one bit left over (its length field has only four
leading ones, so `k = 4` and the raw bits are `1100`), not to
(offset 1, length 36). -/
theorem kcdc_spec_scenario_stream_decodes_to_1_20 :
    Kcdc.read_offset_length
        [false, false, false, false, false, false, false,
         true, true, true, true, false, true, true, false, false, false] =
      some (1, 20, [false]) ∧ (1, 20) ≠ ((1, 36) : Nat × Nat) := by
  decide

/-- Claim C6 (amended): the KCDC back-reference bit stream
`0 000000 111110 11000` (six-bit offset family, raw offset 0, a length
field with five leading ones and raw bits `11000`), read LSB-first,
decodes to offset 1 and length 36, consuming the entire stream.  This
is the stream of the repository's own `read_offset_length_1_36` test. -/
theorem kcdc_read_offset_length_1_36 :
    Kcdc.read_offset_length
        [false, false, false, false, false, false, false,
         true, true, true, true, true, false, true, true, false, false, false] =
      some (1, 36, []) := by
  decide

/-! ### Claim C4: the KCDC offset grammar -/

/-- Claim C4: the KCDC offset field is prefix-unary with four families —
prefix `0` reads 6 raw bits giving `raw + 1` (1..=64), prefix `10`
reads 9 raw bits giving `raw + 65` (65..=576), prefix `110` reads 12
raw bits giving `raw + 577` (577..=4672), prefix `111` reads 20 raw
bits giving `raw + 4673`; the sentinel is `0x101240 = 4673 + 2^20 - 1`,
and an offset equal to the sentinel short-circuits `read_offset_length`
(no length field is consumed) and ends the decode loop successfully. -/
theorem kcdc_offset_grammar :
    (∀ raw rest : List Bool, raw.length = 6 →
      Kcdc.read_offset_field (false :: (raw ++ rest)) = some (loadLE raw + 1, 1, rest) ∧
        1 ≤ loadLE raw + 1 ∧ loadLE raw + 1 ≤ 64) ∧
    (∀ raw rest : List Bool, raw.length = 9 →
      Kcdc.read_offset_field (true :: false :: (raw ++ rest)) = some (loadLE raw + 65, 1, rest) ∧
        65 ≤ loadLE raw + 65 ∧ loadLE raw + 65 ≤ 576) ∧
    (∀ raw rest : List Bool, raw.length = 12 →
      Kcdc.read_offset_field (true :: true :: false :: (raw ++ rest)) =
          some (loadLE raw + 577, 1, rest) ∧
        577 ≤ loadLE raw + 577 ∧ loadLE raw + 577 ≤ 4672) ∧
    (∀ raw rest : List Bool, raw.length = 20 →
      Kcdc.read_offset_field (true :: true :: true :: (raw ++ rest)) =
          some (loadLE raw + 4673, 2, rest) ∧
        4673 ≤ loadLE raw + 4673 ∧ loadLE raw + 4673 ≤ 0x101240) ∧
    Kcdc.OFFSET_STOP = 4673 + (1 <<< 20) - 1 ∧
    (∀ bits offset lo (rest : List Bool),
      Kcdc.read_offset_field bits = some (offset, lo, rest) →
      offset = Kcdc.OFFSET_STOP →
      Kcdc.read_offset_length bits = some (Kcdc.OFFSET_STOP, 0, rest)) ∧
    (∀ fuel len output bits l (rest : List Bool),
      Kcdc.read_offset_length bits = some (Kcdc.OFFSET_STOP, l, rest) →
      Kcdc.loop (fuel + 1) len output (true :: bits) = .ok output) := by
  refine ⟨?_, ?_, ?_, ?_, by decide, ?_, ?_⟩
  · intro raw rest h
    have hlt := loadLE_lt raw
    rw [h] at hlt
    refine ⟨?_, by omega, by omega⟩
    simp [Kcdc.read_offset_field, List.take_left' h, List.drop_left' h, h]
  · intro raw rest h
    have hlt := loadLE_lt raw
    rw [h] at hlt
    refine ⟨?_, by omega, by omega⟩
    simp [Kcdc.read_offset_field, List.take_left' h, List.drop_left' h, h]
  · intro raw rest h
    have hlt := loadLE_lt raw
    rw [h] at hlt
    refine ⟨?_, by omega, by omega⟩
    simp [Kcdc.read_offset_field, List.take_left' h, List.drop_left' h, h]
  · intro raw rest h
    have hlt := loadLE_lt raw
    rw [h] at hlt
    refine ⟨?_, by omega, ?_⟩
    · simp [Kcdc.read_offset_field, List.take_left' h, List.drop_left' h, h]
    · norm_num at hlt ⊢
      omega
  · intro bits offset lo rest hfield hstop
    rw [Kcdc.read_offset_length, hfield, hstop]
    simp
  · intro fuel len output bits l rest hol
    rw [Kcdc.loop]
    simp [hol]

/-- Claim C4 witness: the four families and the sentinel at concrete
inputs — raw offset bits all zero for the short families, the all-ones
20-bit field for the sentinel, and the decode loop ending on it. -/
theorem kcdc_offset_grammar_witness :
    Kcdc.read_offset_field (false :: List.replicate 6 false) = some (1, 1, []) ∧
    Kcdc.read_offset_field (true :: false :: List.replicate 9 false) = some (65, 1, []) ∧
    Kcdc.read_offset_field (true :: true :: false :: List.replicate 12 false) =
      some (577, 1, []) ∧
    Kcdc.read_offset_field (true :: true :: true :: List.replicate 20 true) =
      some (0x101240, 2, []) ∧
    Kcdc.loop 1 7 [] (true :: true :: true :: true :: List.replicate 20 true) = .ok [] := by
  refine ⟨?_, ?_, ?_, ?_, ?_⟩
  · have h := (kcdc_offset_grammar.1 (List.replicate 6 false) [] (by decide)).1
    simpa using h
  · have h := (kcdc_offset_grammar.2.1 (List.replicate 9 false) [] (by decide)).1
    simpa using h
  · have h := (kcdc_offset_grammar.2.2.1 (List.replicate 12 false) [] (by decide)).1
    simpa using h
  · have h := (kcdc_offset_grammar.2.2.2.1 (List.replicate 20 true) [] (by decide)).1
    simpa using h
  · exact kcdc_offset_grammar.2.2.2.2.2.2 0 7 [] _ 0 [] (by decide)

/-! ### Claim C5: the KCDC length-field grammar -/

/-- The length field on a stream of `k` leading ones, a terminating
zero, `k` raw bits and arbitrary trailing bits. -/
theorem read_length_field_spec (lo k : Nat) (raw rest : List Bool)
    (hk : k ≤ 11) (hraw : raw.length = k) :
    Kcdc.read_length_field lo (List.replicate k true ++ false :: (raw ++ rest)) =
      some (if k = 0 then lo + 1 else loadLE raw + 2 ^ k + lo, rest) := by
  have hsplit : List.replicate k true ++ false :: (raw ++ rest) =
      (List.replicate k true ++ [false]) ++ (raw ++ rest) := by simp
  have hlen : (List.replicate k true ++ false :: (raw ++ rest)).length =
      k + 1 + (k + rest.length) := by simp [hraw]; omega
  rw [Kcdc.read_length_field]
  simp only [leadingOnes_take, leadingOnes_replicate_append, hlen]
  have hone : leadingOnes (false :: (raw ++ rest)) = 0 := rfl
  rw [hone]
  have hmin : min (min 12 (k + 1 + (k + rest.length))) (k + 0) = k := by omega
  rw [hmin]
  have hne : ¬(k = min 12 (k + 1 + (k + rest.length))) := by omega
  rw [if_neg hne, hsplit, List.drop_left' (by simp : (List.replicate k true ++ [false]).length = k + 1)]
  rcases Nat.eq_zero_or_pos k with hz | hpos
  · subst hz
    have : raw = [] := List.eq_nil_of_length_eq_zero hraw
    subst this
    simp
  · rw [if_neg (by omega), if_pos (by simp [hraw] : k ≤ (raw ++ rest).length)]
    rw [List.take_left' hraw, List.drop_left' hraw, if_neg (by omega), Nat.one_shiftLeft]

/-- Twelve leading ones make the length field malformed. -/
theorem read_length_field_twelve (lo : Nat) (rest : List Bool) :
    Kcdc.read_length_field lo (List.replicate 12 true ++ rest) = none := by
  have hlen : (List.replicate 12 true ++ rest).length = 12 + rest.length := by simp; omega
  rw [Kcdc.read_length_field]
  simp only [leadingOnes_take, leadingOnes_replicate_append, hlen]
  have : min (min 12 (12 + rest.length)) (12 + leadingOnes rest) = min 12 (12 + rest.length) := by
    have := leadingOnes_le rest
    omega
  rw [this, if_pos rfl]

/-- Claim C5: the KCDC length field counts `k ≤ 11` leading ones,
consumes a terminating zero, then `k` raw bits; `k = 0` yields
`length_offset + 1`, `k > 0` yields `raw + 2^k + length_offset`;
twelve leading ones are rejected (`read_offset_length` propagates the
failure as a corrupt back-reference); the `length_offset` parameter is
the one produced by the offset family — 1 for the 6/9/12-bit families
and 2 for the 20-bit family. -/
theorem kcdc_length_grammar :
    (∀ lo k : Nat, ∀ raw rest : List Bool, k ≤ 11 → raw.length = k →
      Kcdc.read_length_field lo (List.replicate k true ++ false :: (raw ++ rest)) =
        some (if k = 0 then lo + 1 else loadLE raw + 2 ^ k + lo, rest)) ∧
    (∀ lo : Nat, ∀ rest : List Bool,
      Kcdc.read_length_field lo (List.replicate 12 true ++ rest) = none) ∧
    (∀ bits : List Bool, ∀ offset lo : Nat, ∀ rest : List Bool,
      Kcdc.read_offset_field bits = some (offset, lo, rest) →
      offset ≠ Kcdc.OFFSET_STOP →
      Kcdc.read_offset_length bits =
        (Kcdc.read_length_field lo rest).map fun x => (offset, x.1, x.2)) ∧
    (∀ raw rest : List Bool, raw.length = 6 →
      ∃ o, Kcdc.read_offset_field (false :: (raw ++ rest)) = some (o, 1, rest)) ∧
    (∀ raw rest : List Bool, raw.length = 9 →
      ∃ o, Kcdc.read_offset_field (true :: false :: (raw ++ rest)) = some (o, 1, rest)) ∧
    (∀ raw rest : List Bool, raw.length = 12 →
      ∃ o, Kcdc.read_offset_field (true :: true :: false :: (raw ++ rest)) =
        some (o, 1, rest)) ∧
    (∀ raw rest : List Bool, raw.length = 20 →
      ∃ o, Kcdc.read_offset_field (true :: true :: true :: (raw ++ rest)) =
        some (o, 2, rest)) := by
  refine ⟨read_length_field_spec, read_length_field_twelve, ?_, ?_, ?_, ?_, ?_⟩
  · intro bits offset lo rest hfield hne
    rw [Kcdc.read_offset_length, hfield]
    cases h2 : Kcdc.read_length_field lo rest <;> simp [hne, h2]
  · intro raw rest h
    exact ⟨loadLE raw + 1, by simp [Kcdc.read_offset_field, List.take_left' h, List.drop_left' h, h]⟩
  · intro raw rest h
    exact ⟨loadLE raw + 65, by simp [Kcdc.read_offset_field, List.take_left' h, List.drop_left' h, h]⟩
  · intro raw rest h
    exact ⟨loadLE raw + 577, by simp [Kcdc.read_offset_field, List.take_left' h, List.drop_left' h, h]⟩
  · intro raw rest h
    exact ⟨loadLE raw + 4673, by simp [Kcdc.read_offset_field, List.take_left' h, List.drop_left' h, h]⟩

/-- Claim C5 witness: the length grammar at `k = 5`, raw bits `11000`
(value 36 with `length_offset` 1), the malformed 12-ones field, the
offset-then-length composition on a concrete backref, and the four
families at concrete raw offsets. -/
theorem kcdc_length_grammar_witness :
    Kcdc.read_length_field 1
        (List.replicate 5 true ++ false :: ([true, true, false, false, false] ++ [])) =
      some (36, []) ∧
    Kcdc.read_length_field 1 (List.replicate 12 true ++ []) = none ∧
    Kcdc.read_offset_length (false :: List.replicate 6 false ++ [false]) =
      (Kcdc.read_length_field 1 [false]).map (fun x => (1, x.1, x.2)) ∧
    (∃ o, Kcdc.read_offset_field (false :: (List.replicate 6 false ++ [])) = some (o, 1, [])) ∧
    (∃ o, Kcdc.read_offset_field (true :: false :: (List.replicate 9 false ++ [])) =
      some (o, 1, [])) ∧
    (∃ o, Kcdc.read_offset_field (true :: true :: false :: (List.replicate 12 false ++ [])) =
      some (o, 1, [])) ∧
    (∃ o, Kcdc.read_offset_field (true :: true :: true :: (List.replicate 20 false ++ [])) =
      some (o, 2, [])) := by
  refine ⟨?_, kcdc_length_grammar.2.1 1 [], ?_, kcdc_length_grammar.2.2.2.1 _ _ (by decide),
    kcdc_length_grammar.2.2.2.2.1 _ _ (by decide),
    kcdc_length_grammar.2.2.2.2.2.1 _ _ (by decide),
    kcdc_length_grammar.2.2.2.2.2.2 _ _ (by decide)⟩
  · have h := kcdc_length_grammar.1 1 5 [true, true, false, false, false] [] (by decide) (by decide)
    simpa using h
  · have h := kcdc_length_grammar.2.2.1 (false :: List.replicate 6 false ++ [false]) 1 1 [false]
      (by decide) (by decide)
    simpa using h

/-! ### Claim C1: the decompressor length contract -/

/-- A successful KCDC decode loop never grows the output past `len`. -/
theorem kcdc_loop_length_le : ∀ fuel len output bits out,
    Kcdc.loop fuel len output bits = .ok out → output.length ≤ len → out.length ≤ len := by
  intro fuel
  induction fuel with
  | zero =>
    intro len output bits out h
    simp [Kcdc.loop] at h
  | succ fuel ih =>
    intro len output bits out h hout
    match bits with
    | [] => rw [Kcdc.loop] at h; exact absurd h (by simp)
    | false :: rest =>
      rw [Kcdc.loop] at h
      simp only [Bool.not_false, if_true] at h
      by_cases h1 : output.length < len
      · rw [if_pos h1] at h
        by_cases h2 : 8 ≤ rest.length
        · rw [if_pos h2] at h
          exact ih len _ _ out h (by simp; omega)
        · rw [if_neg h2] at h; exact absurd h (by simp)
      · rw [if_neg h1] at h; exact absurd h (by simp)
    | true :: rest =>
      rw [Kcdc.loop] at h
      simp only [Bool.not_true, Bool.false_eq_true, if_false] at h
      match hol : Kcdc.read_offset_length rest with
      | none => rw [hol] at h; exact absurd h (by simp)
      | some (offset, length, rest2) =>
        rw [hol] at h
        simp only at h
        by_cases h1 : offset = Kcdc.OFFSET_STOP
        · rw [if_pos h1] at h
          exact (Except.ok.injEq _ _).mp h ▸ hout
        · rw [if_neg h1] at h
          by_cases h2 : offset ≤ output.length
          · rw [if_pos h2] at h
            by_cases h3 : output.length + length ≤ len
            · rw [if_pos h3] at h
              refine ih len _ _ out h ?_
              rw [backrefCopy_length]
              omega
            · rw [if_neg h3] at h; exact absurd h (by simp)
          · rw [if_neg h2] at h; exact absurd h (by simp)

/-- A successful KCD2 decode loop never grows the output past `len`.
The key step facts: a literal run of base length `n` appends exactly
`n` bytes, and a back-reference of length `l` appends exactly `l`. -/
theorem kcd2_read_length_pos (bits : List Bool) (n : Nat) (rest : List Bool) :
    Kcd2.read_length bits = some (.ok n, rest) → 1 ≤ n := by
  rw [Kcd2.read_length]
  intro h
  split_ifs at h with h1 h2
  · exact absurd h (by simp)
  · simp only [Option.some.injEq, Prod.mk.injEq, Kcd2.Length.ok.injEq] at h
    omega
  · simp only [] at h
    split_ifs at h with h3
    · simp only [Option.some.injEq, Prod.mk.injEq, Kcd2.Length.ok.injEq] at h
      obtain ⟨h, -⟩ := h
      have hp : 1 ≤ 1 <<< leadingOnes (bits.take (min 12 bits.length)) := by
        rw [Nat.one_shiftLeft]
        exact Nat.one_le_two_pow
      omega

theorem bitsToBytes_length (bits : List Bool) :
    (Kcd2.bitsToBytes bits).length = bits.length / 8 := by
  simp [Kcd2.bitsToBytes]

theorem literal_bytes_length (a n : Nat) (bits : List Bool)
    (h1 : 1 ≤ n) (h : bits.length = 8 * n) :
    (Kcd2.literal_bytes a bits).length = n := by
  rw [Kcd2.literal_bytes]
  split_ifs with ha
  · rw [bitsToBytes_length, h]
    omega
  · have ha7 : a % 8 < 8 := Nat.mod_lt _ (by omega)
    have ha1 : 1 ≤ a % 8 := by omega
    simp only [List.length_append, bitsToBytes_length, List.length_take, List.length_drop,
      List.length_cons, List.length_nil, h]
    omega

theorem kcd2_loop_length_le : ∀ fuel len output bits a out,
    Kcd2.loop fuel len output bits a = .ok out → output.length ≤ len → out.length ≤ len := by
  intro fuel
  induction fuel with
  | zero =>
    intro len output bits a out h
    simp [Kcd2.loop] at h
  | succ fuel ih =>
    intro len output bits a out h hout
    rw [Kcd2.loop] at h
    match hrl : Kcd2.read_length bits with
    | none => rw [hrl] at h; exact absurd h (by simp)
    | some (.brk, rest) =>
      rw [hrl] at h
      simp only at h
      exact (Except.ok.injEq _ _).mp h ▸ hout
    | some (.ok n, bits1) =>
      rw [hrl] at h
      simp only at h
      match bits1 with
      | [] => exact absurd h (by simp)
      | false :: bits2 =>
        simp only [Bool.not_false, if_true] at h
        by_cases h1 : output.length + n ≤ len
        · rw [if_pos h1] at h
          by_cases h2 : 8 * n ≤ bits2.length
          · rw [if_pos h2] at h
            refine ih len _ _ _ out h ?_
            rw [List.length_append,
              literal_bytes_length _ n _ (kcd2_read_length_pos bits n _ hrl) (by simp; omega)]
            omega
          · rw [if_neg h2] at h; exact absurd h (by simp)
        · rw [if_neg h1] at h; exact absurd h (by simp)
      | true :: bits2 =>
        simp only [Bool.not_true, Bool.false_eq_true, if_false] at h
        match hol : Kcd2.read_offset_length bits2 n with
        | none => rw [hol] at h; exact absurd h (by simp)
        | some (offset, length, bits3) =>
          rw [hol] at h
          simp only at h
          by_cases h1 : offset ≤ output.length
          · rw [if_pos h1] at h
            by_cases h2 : output.length + length ≤ len
            · rw [if_pos h2] at h
              refine ih len _ _ _ out h ?_
              rw [backrefCopy_length]
              omega
            · rw [if_neg h2] at h; exact absurd h (by simp)
          · rw [if_neg h1] at h; exact absurd h (by simp)

/-- Claim C1 (counterexample): both decoders accept a stream whose
header announces five uncompressed bytes but whose first token is the
terminator, and return an empty buffer — zero bytes, not five — with
no error.  (For KCDC the token is the all-ones 20-bit offset sentinel;
for KCD2 the empty tail of the stream reads as the break length.) -/
theorem decode_short_output_accepted :
    Kcdc.decode [0, 0, 0, 5, 0, 255, 255, 255] = .ok [] ∧
    Kcd2.decode [0, 0, 0, 5, 0] = .ok [] ∧
    be32 [0, 0, 0, 5] = 5 ∧
    ([] : List Nat).length = 0 ∧ (0 : Nat) ≠ 5 := by
  refine ⟨rfl, rfl, by decide, rfl, by decide⟩

/-- Claim C1 (amended): on success each decoder returns at most `L`
bytes, where `L` is the big-endian uncompressed length in the stream
header — a token sequence that would produce more than `L` bytes is
rejected with a corruption error — but a stream may terminate early
and successfully return fewer than `L` bytes; no final length check is
performed. -/
theorem decode_length_at_most_header :
    (∀ input out, Kcdc.decode input = .ok out → out.length ≤ be32 (input.take 4)) ∧
    (∀ input out, Kcd2.decode input = .ok out → out.length ≤ be32 (input.take 4)) := by
  constructor
  · intro input out h
    rw [Kcdc.decode] at h
    split_ifs at h with h4
    match hrest : input.drop 4 with
    | [] => rw [hrest] at h; simp at h
    | _ :: stream =>
      rw [hrest] at h
      exact kcdc_loop_length_le _ _ [] _ out h (by simp)
  · intro input out h
    rw [Kcd2.decode] at h
    split_ifs at h with h4
    match hrest : input.drop 4 with
    | [] => rw [hrest] at h; simp at h
    | _ :: stream =>
      rw [hrest] at h
      exact kcd2_loop_length_le _ _ [] _ 0 out h (by simp)

/-- Claim C1 witness: the repository's own KCDC `"aba"` test vector
decodes to three bytes, within its header length 3; a KCD2 stream with
header length 0 and an empty token stream decodes to zero bytes. -/
theorem decode_length_at_most_header_witness :
    Kcdc.decode [0, 0, 0, 3, 0, 0xC2, 0x88, 0x09, 0xFB, 0xFF, 0xFF, 0xFF] =
      .ok [97, 98, 97] ∧
    [97, 98, 97].length ≤ be32 ([0, 0, 0, 3, 0, 0xC2, 0x88, 0x09, 0xFB, 0xFF, 0xFF, 0xFF].take 4) ∧
    Kcd2.decode [0, 0, 0, 0, 0] = .ok [] ∧
    ([] : List Nat).length ≤ be32 ([0, 0, 0, 0, 0].take 4) := by
  refine ⟨rfl, decode_length_at_most_header.1 _ _ rfl, rfl,
    decode_length_at_most_header.2 _ _ rfl⟩

/-! ### Claim C3: the extended (KCD2) step structure -/

/-- Twelve leading ones read as the break length, consuming nothing. -/
theorem kcd2_read_length_break (rest : List Bool) :
    Kcd2.read_length (List.replicate 12 true ++ rest) =
      some (.brk, List.replicate 12 true ++ rest) := by
  have hlen : (List.replicate 12 true ++ rest).length = 12 + rest.length := by simp; omega
  rw [Kcd2.read_length]
  simp only [leadingOnes_take, leadingOnes_replicate_append, hlen]
  have hmin : min (min 12 (12 + rest.length)) (12 + leadingOnes rest) =
      min 12 (12 + rest.length) := by
    have := leadingOnes_le rest
    omega
  rw [hmin, if_pos rfl]

/-- The KCD2 length field agrees with the KCDC length field at
`length_offset = 0` whenever it yields a value. -/
theorem kcd2_read_length_agrees (bits : List Bool) (n : Nat) (rest : List Bool) :
    Kcd2.read_length bits = some (.ok n, rest) ↔
      Kcdc.read_length_field 0 bits = some (n, rest) := by
  rw [Kcd2.read_length, Kcdc.read_length_field]
  simp only []
  split_ifs with h1 h2 h3
  · simp
  · simp [eq_comm]
  · simp [eq_comm]
  · simp

/-- Claim C3: each KCD2 step first reads a length field with the same
leading-ones grammar as the legacy decoder (the raw field value matches
KCDC's length field at `length_offset = 0`); a leading-ones count
reaching 12 terminates the decode loop successfully; otherwise one bit
follows — `0` appends exactly `length` literal bytes assembled from the
next `8·length` bits starting at the current (possibly byte-misaligned)
bit position, and `1` reads a back-reference whose offset uses exactly
the KCDC four-family grammar, with no terminal sentinel: the sentinel
offset value is returned as an ordinary back-reference. -/
theorem kcd2_step_structure :
    (∀ rest : List Bool, Kcd2.read_length (List.replicate 12 true ++ rest) =
      some (.brk, List.replicate 12 true ++ rest)) ∧
    (∀ fuel len a : Nat, ∀ output : List Nat, ∀ rest : List Bool,
      Kcd2.loop (fuel + 1) len output (List.replicate 12 true ++ rest) a = .ok output) ∧
    (∀ bits : List Bool, ∀ n : Nat, ∀ rest : List Bool,
      Kcd2.read_length bits = some (.ok n, rest) ↔
        Kcdc.read_length_field 0 bits = some (n, rest)) ∧
    (∀ a n : Nat, ∀ bits : List Bool, 1 ≤ n → bits.length = 8 * n →
      (Kcd2.literal_bytes a bits).length = n) ∧
    (∀ fuel len a n : Nat, ∀ output : List Nat, ∀ bits tail : List Bool,
      Kcd2.read_length bits = some (.ok n, false :: tail) →
      output.length + n ≤ len → 8 * n ≤ tail.length →
      Kcd2.loop (fuel + 1) len output bits a =
        Kcd2.loop fuel len
          (output ++ Kcd2.literal_bytes ((a + (bits.length - tail.length)) % 8)
            (tail.take (8 * n)))
          (tail.drop (8 * n)) ((a + (bits.length - tail.length)) % 8)) ∧
    (∀ bits : List Bool, ∀ base : Nat,
      Kcd2.read_offset_length bits base =
        (Kcdc.read_offset_field bits).map fun x => (x.1, base + x.2.1, x.2.2)) ∧
    Kcd2.read_offset_length ([true, true, true] ++ List.replicate 20 true) 1 =
      some (Kcdc.OFFSET_STOP, 3, []) := by
  refine ⟨kcd2_read_length_break, ?_, kcd2_read_length_agrees, literal_bytes_length, ?_, ?_,
    by decide⟩
  · intro fuel len a output rest
    rw [Kcd2.loop, kcd2_read_length_break]
  · intro fuel len a n output bits tail hrl houtlen htail
    rw [Kcd2.loop, hrl]
    simp only [Bool.not_false, if_true]
    rw [if_pos houtlen, if_pos htail]
  · intro bits base
    match bits with
    | [] => rfl
    | false :: r =>
      simp only [Kcd2.read_offset_length, Kcdc.read_offset_field]
      split_ifs <;> rfl
    | true :: [] => rfl
    | true :: false :: r =>
      simp only [Kcd2.read_offset_length, Kcdc.read_offset_field]
      split_ifs <;> rfl
    | true :: true :: [] => rfl
    | true :: true :: false :: r =>
      simp only [Kcd2.read_offset_length, Kcdc.read_offset_field]
      split_ifs <;> rfl
    | true :: true :: true :: r =>
      simp only [Kcd2.read_offset_length, Kcdc.read_offset_field]
      split_ifs <;> rfl

/-- Claim C3 witness: termination on twelve ones with an empty output;
the length grammars agreeing on the field `10 1` (value 3); a literal
step appending one byte (`a`, 97) from the current bit position; and
the offset grammar on a concrete six-bit family backref. -/
theorem kcd2_step_structure_witness :
    Kcd2.loop 1 0 [] (List.replicate 12 true ++ []) 0 = .ok [] ∧
    Kcd2.read_length [true, false, true] = some (.ok 3, []) ∧
    Kcd2.loop 2 1 [] ([false, false] ++ byteBits 97) 0 =
      Kcd2.loop 1 1
        ([] ++ Kcd2.literal_bytes ((0 + (([false, false] ++ byteBits 97).length -
            (byteBits 97).length)) % 8) ((byteBits 97).take 8))
        ((byteBits 97).drop 8) ((0 + (([false, false] ++ byteBits 97).length -
            (byteBits 97).length)) % 8) ∧
    Kcd2.read_offset_length (false :: List.replicate 6 false) 3 = some (1, 4, []) := by
  refine ⟨kcd2_step_structure.2.1 0 0 0 [] [], ?_, ?_, ?_⟩
  · exact (kcd2_step_structure.2.2.1 [true, false, true] 3 []).mpr (by decide)
  · exact kcd2_step_structure.2.2.2.2.1 1 1 0 1 [] ([false, false] ++ byteBits 97)
      (byteBits 97) (by decide) (by decide) (by decide)
  · have h := kcd2_step_structure.2.2.2.2.2.1 (false :: List.replicate 6 false) 3
    simpa using h

/-! ### Claim C7: the byte-order loader protocol -/

/-- Claim C7: for every record type using the loader protocol and every
input — too little input fails `TruncatedHeader`; a byte-order mark of
0x0001 read from the raw bytes decodes the little-endian reading; a
mark of 0x0100 re-reads the record big-endian and decodes that; any
other mark fails `UnknownByteOrder`. -/
theorem loader_protocol {R S E : Type} (L : Order.LoaderSpec R S E) (input : List Nat) :
    (input.length < L.size → Order.load L input = .truncatedHeader) ∧
    (L.size ≤ input.length →
      L.byte_order (L.read false (input.take L.size)) = Order.BYTE_ORDER_NATIVE →
      Order.load L input =
        .decoded (L.into_native false (L.read false (input.take L.size)) input)) ∧
    (L.size ≤ input.length →
      L.byte_order (L.read false (input.take L.size)) = Order.BYTE_ORDER_SWAPPED →
      Order.load L input =
        .decoded (L.into_native true (L.read true (input.take L.size)) input)) ∧
    (L.size ≤ input.length →
      L.byte_order (L.read false (input.take L.size)) ≠ Order.BYTE_ORDER_NATIVE →
      L.byte_order (L.read false (input.take L.size)) ≠ Order.BYTE_ORDER_SWAPPED →
      Order.load L input = .unknownByteOrder) := by
  refine ⟨?_, ?_, ?_, ?_⟩
  · intro h
    rw [Order.load, if_neg (by omega)]
  · intro hlen hmark
    rw [Order.load, if_pos hlen]
    simp only [if_pos hmark]
  · intro hlen hmark
    have hne : L.byte_order (L.read false (input.take L.size)) ≠ Order.BYTE_ORDER_NATIVE := by
      rw [hmark]
      decide
    rw [Order.load, if_pos hlen]
    simp only [if_neg hne, if_pos hmark]
  · intro hlen h1 h2
    rw [Order.load, if_pos hlen]
    simp only [if_neg h1, if_neg h2]

/-- Claim C7 witness: the sample loader on concrete inputs — truncated,
native mark `[1, 0]`, swapped mark `[0, 1]`, and an unknown mark. -/
theorem loader_protocol_witness :
    Order.load Order.sampleLoader [1] = .truncatedHeader ∧
    Order.load Order.sampleLoader [1, 0, 9] = .decoded (.ok 3) ∧
    Order.load Order.sampleLoader [0, 1, 9] = .decoded (.ok 4) ∧
    Order.load Order.sampleLoader [2, 2] = .unknownByteOrder := by
  refine ⟨(loader_protocol Order.sampleLoader [1]).1 (by decide), ?_, ?_, ?_⟩
  · have h := (loader_protocol Order.sampleLoader [1, 0, 9]).2.1 (by decide) (by decide)
    simpa using h
  · have h := (loader_protocol Order.sampleLoader [0, 1, 9]).2.2.1 (by decide) (by decide)
    simpa using h
  · exact (loader_protocol Order.sampleLoader [2, 2]).2.2.2 (by decide) (by decide) (by decide)

/-! ### Claim C2: the vertex-normal welding pass -/

/-- Claim C2 (the code evaluated at the failing input): in the model
with positions `(1,0,0), (1,0,0), (0,0,0)` and the single face
`(0, 1, 2)` (smoothing 1, normal `(0,0,1)`), for every incidence
permutation the source's sort comparator allows, the accumulation the
code performs — its `GroupBy` predicate applies the sorted permutation
twice via `temp_verts[sorted_vertices[*a]]` — differs from the
positionally-coincident-cluster accumulation the claim describes.  The
quantification is over all 3! arrangements of the three incidence
indices, covering every possible `sort_unstable_by` result. -/
theorem modl_weld_grouping_diverges :
    ∀ sv ∈ ([[0, 1, 2], [0, 2, 1], [1, 0, 2], [1, 2, 0], [2, 0, 1], [2, 1, 0]] :
        List (List Nat)),
      Modl.sortedBySmoothing Modl.bugPositions Modl.bugFaces sv = true →
      Modl.codeNormals Modl.bugPositions Modl.bugFaces sv ≠
        Modl.claimNormals Modl.bugPositions Modl.bugFaces sv := by
  decide

/-- Claim C2 witness: the divergence at the sorted permutation
`[2, 0, 1]` — the code yields one face-normal contribution per vertex,
the claimed welding clusters give vertices 0 and 1 two each. -/
theorem modl_weld_grouping_diverges_witness :
    Modl.codeNormals Modl.bugPositions Modl.bugFaces [2, 0, 1] ≠
      Modl.claimNormals Modl.bugPositions Modl.bugFaces [2, 0, 1] :=
  modl_weld_grouping_diverges [2, 0, 1] (by decide) (by decide)

/-! ### Claim C9: the atlas canvas binary search -/

/-- Claim C9: abstracting `rectangle_pack::pack_rects` on the fixed
rectangle input as a packability oracle `packs` (monotone in the canvas
edge, as packability is), `pack_to_minimal_square` returns the smallest
edge among `{8, …, 4096}` at which the rectangles pack, and errors
exactly when they do not pack at 4096. -/
theorem pack_to_minimal_square_correct (packs : Nat → Bool)
    (hmono : ∀ s t, s ≤ t → packs s = true → packs t = true) :
    (Pack.pack_to_minimal_square packs = none ↔ packs 4096 = false) ∧
    (∀ s, Pack.pack_to_minimal_square packs = some s →
      s ∈ Pack.SIZES ∧ packs s = true ∧ ∀ t ∈ Pack.SIZES, packs t = true → s ≤ t) := by
  have hfalse : ∀ c, packs c = false → ∀ t, t ≤ c → packs t = false := by
    intro c hc t ht
    cases h : packs t with
    | false => rfl
    | true => exact absurd (hmono t c ht h) (by simp [hc])
  have key : ∀ s c, packs c = false → (∀ t ∈ Pack.SIZES, t < s → t ≤ c) →
      ∀ t ∈ Pack.SIZES, packs t = true → s ≤ t := by
    intro s c hc hbelow t ht hp
    by_contra hlt
    push_neg at hlt
    exact absurd hp (by simp [hfalse c hc t (hbelow t ht hlt)])
  have h8min : ∀ t ∈ Pack.SIZES, 8 ≤ t := by decide
  have finish : ∀ s, Pack.pack_to_minimal_square packs = some s → packs s = true →
      s ∈ Pack.SIZES → (∀ t ∈ Pack.SIZES, packs t = true → s ≤ t) →
      (Pack.pack_to_minimal_square packs = none ↔ packs 4096 = false) ∧
      (∀ u, Pack.pack_to_minimal_square packs = some u →
        u ∈ Pack.SIZES ∧ packs u = true ∧ ∀ t ∈ Pack.SIZES, packs t = true → u ≤ t) := by
    intro s hres hs hmem hminimal
    have h4096 : packs 4096 = true := hmono s 4096 (by fin_cases hmem <;> omega) hs
    refine ⟨by rw [hres]; simp [h4096], ?_⟩
    intro u hu
    rw [hres] at hu
    obtain rfl : s = u := Option.some.inj hu
    exact ⟨hmem, hs, hminimal⟩
  cases h256 : packs 256 with
  | true =>
    cases h32 : packs 32 with
    | true =>
      cases h16 : packs 16 with
      | true =>
        cases h8 : packs 8 with
        | true =>
          refine finish 8 ?_ h8 (by decide) (fun t ht _ => h8min t ht)
          simp [Pack.pack_to_minimal_square, Pack.packLoop, Pack.SIZES, h256, h32, h16, h8]
        | false =>
          refine finish 16 ?_ h16 (by decide) (key 16 8 h8 (by decide))
          simp [Pack.pack_to_minimal_square, Pack.packLoop, Pack.SIZES, h256, h32, h16, h8]
      | false =>
        refine finish 32 ?_ h32 (by decide) (key 32 16 h16 (by decide))
        simp [Pack.pack_to_minimal_square, Pack.packLoop, Pack.SIZES, h256, h32, h16]
    | false =>
      cases h128 : packs 128 with
      | true =>
        cases h64 : packs 64 with
        | true =>
          refine finish 64 ?_ h64 (by decide) (key 64 32 h32 (by decide))
          simp [Pack.pack_to_minimal_square, Pack.packLoop, Pack.SIZES, h256, h32, h128, h64]
        | false =>
          refine finish 128 ?_ h128 (by decide) (key 128 64 h64 (by decide))
          simp [Pack.pack_to_minimal_square, Pack.packLoop, Pack.SIZES, h256, h32, h128, h64]
      | false =>
        refine finish 256 ?_ h256 (by decide) (key 256 128 h128 (by decide))
        simp [Pack.pack_to_minimal_square, Pack.packLoop, Pack.SIZES, h256, h32, h128]
  | false =>
    cases h2048 : packs 2048 with
    | true =>
      cases h1024 : packs 1024 with
      | true =>
        cases h512 : packs 512 with
        | true =>
          refine finish 512 ?_ h512 (by decide) (key 512 256 h256 (by decide))
          simp [Pack.pack_to_minimal_square, Pack.packLoop, Pack.SIZES, h256, h2048, h1024, h512]
        | false =>
          refine finish 1024 ?_ h1024 (by decide) (key 1024 512 h512 (by decide))
          simp [Pack.pack_to_minimal_square, Pack.packLoop, Pack.SIZES, h256, h2048, h1024, h512]
      | false =>
        refine finish 2048 ?_ h2048 (by decide) (key 2048 1024 h1024 (by decide))
        simp [Pack.pack_to_minimal_square, Pack.packLoop, Pack.SIZES, h256, h2048, h1024]
    | false =>
      rcases Bool.dichotomy (packs 4096) with h4096 | h4096
      case inr =>
        refine finish 4096 ?_ h4096 (by decide) (key 4096 2048 h2048 (by decide))
        simp [Pack.pack_to_minimal_square, Pack.packLoop, Pack.SIZES, h256, h2048, h4096]
      case inl =>
        have hres : Pack.pack_to_minimal_square packs = none := by
          simp [Pack.pack_to_minimal_square, Pack.packLoop, Pack.SIZES, h256, h2048, h4096]
        refine ⟨by rw [hres]; simp [h4096], ?_⟩
        intro u hu
        rw [hres] at hu
        exact absurd hu (by simp)

/-- Claim C9 witness: a threshold oracle packing from 64 up gives 64;
the never-packing oracle gives the error. -/
theorem pack_to_minimal_square_correct_witness :
    (Pack.pack_to_minimal_square (fun s => decide (64 ≤ s)) = none ↔
      decide ((64 : Nat) ≤ 4096) = false) ∧
    ((64 : Nat) ∈ Pack.SIZES ∧ decide ((64 : Nat) ≤ 64) = true ∧
      ∀ t ∈ Pack.SIZES, decide (64 ≤ t) = true → 64 ≤ t) ∧
    (Pack.pack_to_minimal_square (fun _ => false) = none ↔ (false : Bool) = false) := by
  have hmono : ∀ s t : Nat, s ≤ t → decide (64 ≤ s) = true → decide (64 ≤ t) = true := by
    intro s t hst h
    simp at h ⊢
    omega
  have hmono2 : ∀ s t : Nat, s ≤ t → (fun _ : Nat => false) s = true →
      (fun _ : Nat => false) t = true := by
    intro s t _ h
    exact absurd h (by simp)
  refine ⟨(pack_to_minimal_square_correct _ hmono).1, ?_,
    (pack_to_minimal_square_correct _ hmono2).1⟩
  exact (pack_to_minimal_square_correct _ hmono).2 64 (by decide)

/-! ### Claim C8: sorted child links and their binary search -/

theorem childCmp_gt_iff (a b : Chunky.ChildLink) :
    Chunky.childCmp a b = .gt ↔
      (b.child_id < a.child_id ∨ (a.child_id = b.child_id ∧
        (b.chunk_id.tag < a.chunk_id.tag ∨ (a.chunk_id.tag = b.chunk_id.tag ∧
          b.chunk_id.number < a.chunk_id.number)))) := by
  simp [Chunky.childCmp, Chunky.chunkIdCmp, Ordering.then_eq_gt, Nat.compare_eq_gt,
    Nat.compare_eq_eq]

theorem childCmp_asymm {a b : Chunky.ChildLink} (h : Chunky.childCmp a b = .gt) :
    Chunky.childCmp b a ≠ .gt := by
  rw [childCmp_gt_iff] at h
  rw [ne_eq, childCmp_gt_iff]
  omega

theorem chain'_insertChild (c : Chunky.ChildLink) :
    ∀ l : List Chunky.ChildLink,
      List.Chain' (fun a b => Chunky.childCmp a b ≠ .gt) l →
      List.Chain' (fun a b => Chunky.childCmp a b ≠ .gt) (Chunky.insertChild c l) := by
  intro l
  induction l with
  | nil =>
    intro _
    simp [Chunky.insertChild]
  | cons x xs ih =>
    intro h
    rw [Chunky.insertChild]
    split_ifs with hcx
    · exact List.chain'_cons.mpr ⟨hcx, h⟩
    · have hgt : Chunky.childCmp c x = .gt := by
        by_contra hne
        exact hcx hne
      have hxc : Chunky.childCmp x c ≠ .gt := childCmp_asymm hgt
      obtain ⟨hhead, hxs⟩ := List.chain'_cons'.mp h
      refine List.chain'_cons'.mpr ⟨?_, ih hxs⟩
      intro y hy
      cases xs with
      | nil =>
        simp [Chunky.insertChild] at hy
        subst hy
        exact hxc
      | cons z zs =>
        rw [Chunky.insertChild] at hy
        split_ifs at hy with hcz
        · simp at hy
          subst hy
          exact hxc
        · simp at hy
          subst hy
          exact hhead z (by simp)

theorem sortChildren_chain (l : List Chunky.ChildLink) :
    List.Chain' (fun a b => Chunky.childCmp a b ≠ .gt) (Chunky.sortChildren l) := by
  induction l with
  | nil => simp [Chunky.sortChildren]
  | cons x xs ih => exact chain'_insertChild x _ ih

theorem searchCmp_eq_iff (cid t : Nat) (c : Chunky.ChildLink) :
    Chunky.searchCmp cid t c = .eq ↔ c.child_id = cid ∧ c.chunk_id.tag = t := by
  simp [Chunky.searchCmp, Ordering.then_eq_eq, Nat.compare_eq_eq]

theorem searchCmp_lt_iff (cid t : Nat) (c : Chunky.ChildLink) :
    Chunky.searchCmp cid t c = .lt ↔
      c.child_id < cid ∨ (c.child_id = cid ∧ c.chunk_id.tag < t) := by
  simp [Chunky.searchCmp, Ordering.then_eq_lt, Nat.compare_eq_lt, Nat.compare_eq_eq]

theorem searchCmp_gt_iff (cid t : Nat) (c : Chunky.ChildLink) :
    Chunky.searchCmp cid t c = .gt ↔
      cid < c.child_id ∨ (c.child_id = cid ∧ t < c.chunk_id.tag) := by
  simp [Chunky.searchCmp, Ordering.then_eq_gt, Nat.compare_eq_gt, Nat.compare_eq_eq]

theorem searchCmp_rank_mono (cid t : Nat) {a b : Chunky.ChildLink}
    (h : Chunky.childCmp a b ≠ .gt) :
    Chunky.ordRank (Chunky.searchCmp cid t a) ≤ Chunky.ordRank (Chunky.searchCmp cid t b) := by
  rw [ne_eq, childCmp_gt_iff] at h
  cases hsa : Chunky.searchCmp cid t a <;> cases hsb : Chunky.searchCmp cid t b <;>
    simp [Chunky.ordRank]
  · rw [searchCmp_eq_iff] at hsa
    rw [searchCmp_lt_iff] at hsb
    omega
  · rw [searchCmp_gt_iff] at hsa
    rw [searchCmp_lt_iff] at hsb
    omega
  · rw [searchCmp_gt_iff] at hsa
    rw [searchCmp_eq_iff] at hsb
    omega

theorem chain'_searchCmp_mono (cid t : Nat) (l : List Chunky.ChildLink)
    (h : List.Chain' (fun a b => Chunky.childCmp a b ≠ .gt) l) :
    ∀ i j, i ≤ j → j < l.length →
      Chunky.ordRank (Chunky.searchCmp cid t (l.getD i Chunky.dfltChild)) ≤
        Chunky.ordRank (Chunky.searchCmp cid t (l.getD j Chunky.dfltChild)) := by
  have hchain : List.Chain' (fun a b =>
      Chunky.ordRank (Chunky.searchCmp cid t a) ≤
        Chunky.ordRank (Chunky.searchCmp cid t b)) l :=
    h.imp fun a b hab => searchCmp_rank_mono cid t hab
  have step : ∀ k, k + 1 < l.length →
      Chunky.ordRank (Chunky.searchCmp cid t (l.getD k Chunky.dfltChild)) ≤
        Chunky.ordRank (Chunky.searchCmp cid t (l.getD (k + 1) Chunky.dfltChild)) := by
    intro k hk
    have hstep := List.chain'_iff_get.mp hchain k (by omega)
    rw [List.getD_eq_getElem l _ (by omega : k < l.length), List.getD_eq_getElem l _ hk]
    simpa [List.get_eq_getElem] using hstep
  suffices h2 : ∀ k i, i + k < l.length →
      Chunky.ordRank (Chunky.searchCmp cid t (l.getD i Chunky.dfltChild)) ≤
        Chunky.ordRank (Chunky.searchCmp cid t (l.getD (i + k) Chunky.dfltChild)) by
    intro i j hij hj
    obtain ⟨k, rfl⟩ := Nat.exists_eq_add_of_le hij
    exact h2 k i hj
  intro k
  induction k with
  | zero =>
    intro i _
    simp
  | succ k ih =>
    intro i hik
    have heq : i + (k + 1) = (i + k) + 1 := rfl
    rw [heq]
    exact le_trans (ih i (by omega)) (step (i + k) (by omega))

theorem bsLoop_sound (f : Chunky.ChildLink → Ordering) (l : List Chunky.ChildLink) :
    ∀ fuel left right i, right ≤ l.length →
      Chunky.bsLoop f l fuel left right = some i →
      i < l.length ∧ f (l.getD i Chunky.dfltChild) = .eq := by
  intro fuel
  induction fuel with
  | zero =>
    intro left right i _ h
    simp [Chunky.bsLoop] at h
  | succ fuel ih =>
    intro left right i hr h
    rw [Chunky.bsLoop] at h
    split_ifs at h with hlr
    · simp only [] at h
      cases hm : f (l.getD (left + (right - left) / 2) Chunky.dfltChild) with
      | lt =>
        simp only [hm] at h
        exact ih _ _ _ hr h
      | gt =>
        simp only [hm] at h
        exact ih _ _ _ (by omega) h
      | eq =>
        simp only [hm] at h
        obtain rfl := Option.some.inj h
        exact ⟨by omega, hm⟩

theorem bsLoop_complete (f : Chunky.ChildLink → Ordering) (l : List Chunky.ChildLink)
    (hcompat : ∀ i j, i ≤ j → j < l.length →
      Chunky.ordRank (f (l.getD i Chunky.dfltChild)) ≤
        Chunky.ordRank (f (l.getD j Chunky.dfltChild))) :
    ∀ fuel left right e, e < l.length → f (l.getD e Chunky.dfltChild) = .eq →
      left ≤ e → e < right → right ≤ l.length → right - left < fuel →
      ∃ i, Chunky.bsLoop f l fuel left right = some i := by
  intro fuel
  induction fuel with
  | zero =>
    intro left right e _ _ _ _ _ hfuel
    omega
  | succ fuel ih =>
    intro left right e he hfe hle hlt hrl hfuel
    rw [Chunky.bsLoop]
    have hlr : left < right := by omega
    rw [if_pos hlr]
    simp only []
    have hmlt : left + (right - left) / 2 < right := by omega
    cases hfm : f (l.getD (left + (right - left) / 2) Chunky.dfltChild) with
    | eq => exact ⟨left + (right - left) / 2, by simp [hfm]⟩
    | lt =>
      have hem : left + (right - left) / 2 < e := by
        by_contra hle2
        push_neg at hle2
        have hmono := hcompat e (left + (right - left) / 2) hle2 (by omega)
        rw [hfe, hfm] at hmono
        simp [Chunky.ordRank] at hmono
      obtain ⟨i, hi⟩ := ih (left + (right - left) / 2 + 1) right e he hfe (by omega) hlt hrl
        (by omega)
      exact ⟨i, by simp [hfm, hi]⟩
    | gt =>
      have hem : e < left + (right - left) / 2 := by
        by_contra hle2
        push_neg at hle2
        have hmono := hcompat (left + (right - left) / 2) e hle2 he
        rw [hfe, hfm] at hmono
        simp [Chunky.ordRank] at hmono
      obtain ⟨i, hi⟩ := ih left (left + (right - left) / 2) e he hfe hle hem (by omega)
        (by omega)
      exact ⟨i, by simp [hfm, hi]⟩

theorem get_child_sound (e : Chunky.IndexEntry) (cid : Nat) (tag : List Nat)
    (c : Chunky.ChunkId) (h : Chunky.get_child e cid tag = some c) :
    ∃ link ∈ e.children, link.child_id = cid ∧ link.chunk_id.tag = be32 tag ∧
      c = link.chunk_id := by
  rw [Chunky.get_child] at h
  split_ifs at h with htag
  · cases hbs : Chunky.binary_search_by (Chunky.searchCmp cid (be32 tag)) e.children with
    | none =>
      simp only [hbs] at h
      exact absurd h (by simp)
    | some i =>
      simp only [hbs] at h
      obtain rfl := (Option.some.inj h).symm
      rw [Chunky.binary_search_by] at hbs
      obtain ⟨hilen, heq⟩ := bsLoop_sound _ _ _ _ _ _ le_rfl hbs
      rw [searchCmp_eq_iff] at heq
      refine ⟨e.children.getD i Chunky.dfltChild, ?_, heq.1, heq.2, rfl⟩
      rw [List.getD_eq_getElem _ _ hilen]
      exact List.getElem_mem hilen

theorem get_child_complete (e : Chunky.IndexEntry) (cid : Nat) (tag : List Nat)
    (hsorted : List.Chain' (fun a b => Chunky.childCmp a b ≠ .gt) e.children)
    (htag : tag.length = 4)
    (hex : ∃ link ∈ e.children, link.child_id = cid ∧ link.chunk_id.tag = be32 tag) :
    ∃ c, Chunky.get_child e cid tag = some c := by
  obtain ⟨link, hmem, hcid, htg⟩ := hex
  obtain ⟨n, hn, hget⟩ := List.mem_iff_getElem.mp hmem
  have hfe : Chunky.searchCmp cid (be32 tag) (e.children.getD n Chunky.dfltChild) = .eq := by
    rw [List.getD_eq_getElem _ _ hn, hget, searchCmp_eq_iff]
    exact ⟨hcid, htg⟩
  have hcompat := chain'_searchCmp_mono cid (be32 tag) e.children hsorted
  obtain ⟨i, hi⟩ := bsLoop_complete _ _ hcompat (e.children.length + 1) 0 e.children.length n
    hn hfe (by omega) hn le_rfl (by omega)
  refine ⟨(e.children.getD i Chunky.dfltChild).chunk_id, ?_⟩
  have hbs : Chunky.binary_search_by (Chunky.searchCmp cid (be32 tag)) e.children = some i := by
    rw [Chunky.binary_search_by]
    exact hi
  rw [Chunky.get_child, if_pos htag]
  simp only [hbs]

theorem parse_entry_children_sorted (big : Bool) (data : List Nat) (id : Chunky.ChunkId)
    (entry : Chunky.IndexEntry) (h : Chunky.parse_entry big data = some (id, entry)) :
    List.Chain' (fun a b => Chunky.childCmp a b ≠ .gt) entry.children := by
  rw [Chunky.parse_entry] at h
  split_ifs at h with h20
  · simp only [] at h
    cases hpc : Chunky.parseChildren big (Chunky.readU16 big ((data.drop 16).take 2))
        (data.drop 20) with
    | none =>
      simp only [hpc] at h
      exact absurd h (by simp)
    | some pr =>
      obtain ⟨children, rest⟩ := pr
      simp only [hpc] at h
      cases hpn : Chunky.parseName big rest with
      | none =>
        simp only [hpn] at h
        exact absurd h (by simp)
      | some name =>
        simp only [hpn] at h
        obtain ⟨-, hent⟩ := Prod.mk.injEq .. ▸ Option.some.inj h
        rw [← hent]
        exact sortChildren_chain children

/-- Claim C8: every index entry the container parser constructs has its
child-link list sorted by the composite key (child ordinal, child chunk
id); `get_child` binary-searches that list by (ordinal, tag), returning
the chunk id of a matching child link exactly when one exists. -/
theorem index_children_sorted_and_binary_searched :
    (∀ (big : Bool) (data : List Nat) (id : Chunky.ChunkId) (entry : Chunky.IndexEntry),
      Chunky.parse_entry big data = some (id, entry) →
      List.Chain' (fun a b => Chunky.childCmp a b ≠ .gt) entry.children) ∧
    (∀ (entry : Chunky.IndexEntry) (cid : Nat) (tag : List Nat) (c : Chunky.ChunkId),
      Chunky.get_child entry cid tag = some c →
      ∃ link ∈ entry.children, link.child_id = cid ∧ link.chunk_id.tag = be32 tag ∧
        c = link.chunk_id) ∧
    (∀ (entry : Chunky.IndexEntry) (cid : Nat) (tag : List Nat),
      List.Chain' (fun a b => Chunky.childCmp a b ≠ .gt) entry.children →
      tag.length = 4 →
      ((∃ link ∈ entry.children, link.child_id = cid ∧ link.chunk_id.tag = be32 tag) ↔
        ∃ c, Chunky.get_child entry cid tag = some c)) := by
  refine ⟨parse_entry_children_sorted, get_child_sound, ?_⟩
  intro entry cid tag hs htag
  constructor
  · exact get_child_complete entry cid tag hs htag
  · rintro ⟨c, hc⟩
    obtain ⟨link, hmem, h1, h2, -⟩ := get_child_sound entry cid tag c hc
    exact ⟨link, hmem, h1, h2⟩

/-- Claim C8 witness: a concrete parse (two child links arriving
unsorted, sorted by the parser), a concrete hit through the binary
search, and the existence direction on the same sorted entry. -/
theorem index_children_sorted_and_binary_searched_witness :
    List.Chain' (fun a b => Chunky.childCmp a b ≠ .gt)
      (Chunky.IndexEntry.children
        ⟨100, 4, 50, [], [⟨⟨5, 1⟩, 0⟩, ⟨⟨7, 2⟩, 1⟩]⟩) ∧
    (∃ link ∈ Chunky.IndexEntry.children ⟨0, 0, 0, [], [⟨⟨5, 1⟩, 0⟩, ⟨⟨7, 2⟩, 1⟩]⟩,
      link.child_id = 1 ∧ link.chunk_id.tag = be32 [0, 0, 0, 7] ∧
        (⟨7, 2⟩ : Chunky.ChunkId) = link.chunk_id) ∧
    (∃ c, Chunky.get_child ⟨0, 0, 0, [], [⟨⟨5, 1⟩, 0⟩, ⟨⟨7, 2⟩, 1⟩]⟩ 1 [0, 0, 0, 7] =
      some c) := by
  refine ⟨?_, ?_, ?_⟩
  · exact index_children_sorted_and_binary_searched.1 false
      [1, 0, 0, 0, 1, 0, 0, 0, 100, 0, 0, 0, 4, 50, 0, 0, 2, 0, 0, 0,
       7, 0, 0, 0, 2, 0, 0, 0, 1, 0, 0, 0,
       5, 0, 0, 0, 1, 0, 0, 0, 0, 0, 0, 0]
      ⟨1, 1⟩ ⟨100, 4, 50, [], [⟨⟨5, 1⟩, 0⟩, ⟨⟨7, 2⟩, 1⟩]⟩ (by decide)
  · exact index_children_sorted_and_binary_searched.2.1
      ⟨0, 0, 0, [], [⟨⟨5, 1⟩, 0⟩, ⟨⟨7, 2⟩, 1⟩]⟩ 1 [0, 0, 0, 7] ⟨7, 2⟩ (by decide)
  · refine (index_children_sorted_and_binary_searched.2.2
      ⟨0, 0, 0, [], [⟨⟨5, 1⟩, 0⟩, ⟨⟨7, 2⟩, 1⟩]⟩ 1 [0, 0, 0, 7] ?_ (by decide)).mp ?_
    · exact List.chain'_cons.mpr ⟨by decide, List.chain'_singleton _⟩
    · exact ⟨⟨⟨7, 2⟩, 1⟩, by simp, by decide, by decide⟩

/-! ### Claim C10: the unchecked chunk byte range -/

/-- Claim C10: `get_chunk` indexes the archive with the unchecked range
`[offset, offset + length)` — inside the archive it returns those bytes
(decompressed to an owned buffer under the PACKED flag, borrowed
otherwise), and for an entry whose range exceeds the archive it panics
(the outer `none`) instead of returning an error; the bound is never
validated at index-build time, witnessed by a concrete record that
parses successfully yet panics `get_chunk` on an empty archive. -/
theorem get_chunk_unchecked_range :
    (∀ (file : Chunky.ChunkyFile) (entry : Chunky.IndexEntry),
      entry.offset + entry.length ≤ file.data.length →
      Chunky.get_chunk file entry =
        some (if entry.flags &&& 0x04 ≠ 0 then
            (Kauai.decode ((file.data.drop entry.offset).take entry.length)).map .owned
          else .ok (.borrowed ((file.data.drop entry.offset).take entry.length)))) ∧
    (∀ (file : Chunky.ChunkyFile) (entry : Chunky.IndexEntry),
      file.data.length < entry.offset + entry.length →
      Chunky.get_chunk file entry = none) ∧
    (Chunky.parse_entry false
        [1, 0, 0, 0, 1, 0, 0, 0, 100, 0, 0, 0, 0, 50, 0, 0, 0, 0, 0, 0] =
      some (⟨1, 1⟩, ⟨100, 0, 50, [], []⟩) ∧
      Chunky.get_chunk ⟨[], []⟩ ⟨100, 0, 50, [], []⟩ = none) := by
  refine ⟨?_, ?_, by decide, rfl⟩
  · intro file entry h
    rw [Chunky.get_chunk, if_pos h]
    split_ifs with hp
    · rfl
    · rfl
  · intro file entry h
    rw [Chunky.get_chunk, if_neg (by omega)]

/-- Claim C10 witness: an in-range unpacked entry returns the borrowed
slice; an out-of-range entry panics. -/
theorem get_chunk_unchecked_range_witness :
    Chunky.get_chunk ⟨[9, 8, 7], []⟩ ⟨1, 0, 2, [], []⟩ =
      some (.ok (.borrowed [8, 7])) ∧
    Chunky.get_chunk ⟨[9, 8, 7], []⟩ ⟨2, 0, 2, [], []⟩ = none := by
  constructor
  · have h := get_chunk_unchecked_range.1 ⟨[9, 8, 7], []⟩ ⟨1, 0, 2, [], []⟩ (by decide)
    simpa using h
  · exact get_chunk_unchecked_range.2.1 ⟨[9, 8, 7], []⟩ ⟨2, 0, 2, [], []⟩ (by decide)

end Dump
